import Mathlib

/-!
Verification of the PR-URL construction tool (`src/main.rs`).

The program's pure core is embedded shallowly below:

* `determine_service` — provider classification by substring containment;
* `parse_git_url` — extraction of `(owner, repo)` from a remote URL via two
  regular expressions (an SSH-style one and an HTTPS-style one);
* `parse_azure_url` — the Azure DevOps specific URL parser;
* `get_default_branch` / `resolveTarget` — default-branch probing;
* `build_pr_url` — the provider-specific PR/MR URL builder.

The Rust regular expressions are embedded as explicit backtracking matchers
that implement the regex crate's leftmost-first (Perl-style preference)
match semantics for exactly the patterns appearing in the source:

* `git@(?:.*?)[:/](.*?)/(.*?)(?:\.git)?$`  (SSH form)
* `https://(?:.*?)/([^/]+)/([^/]+?)(?:\.git)?$`  (HTTPS form)
* `https://dev\.azure\.com/([^/]+)/([^/]+)`  (Azure)
* `https://([^.]+)\.visualstudio\.com/([^/]+)`  (legacy Azure)

`Option` backtracking (`<|>`) with alternatives ordered by the regex
preference (lazy `?` prefers fewer repetitions tried first, greedy prefers
more) realises leftmost-first capture semantics; the outer search functions
try every start position left to right, i.e. leftmost match.  `.` matches
any character except `'\n'`; the character classes `[:/]`, `[^/]`, `[^.]`
also match `'\n'`.

Functions in the Rust source that terminate the process with `exit(1)` are
modelled as returning `none`.
-/

/-- The `GitService` enum from the source. -/
inductive GitService where
  | GitHub
  | GitLab
  | Bitbucket
  | AzureDevOps
  | Unknown
deriving DecidableEq, Repr

/-- Consume the literal `pat` from the front of `l`; return the remainder on
success.  This is the embedding of matching a literal piece of a regex. -/
def consumeLit : List Char → List Char → Option (List Char)
  | [], l => some l
  | _ :: _, [] => none
  | p :: ps, c :: cs => if p = c then consumeLit ps cs else none

/-- Matcher for the tail `(.*?)(?:\.git)?$` of the SSH regex: the lazy second
capture group, then an optional literal `.git`, then end of haystack.
Returns the text of the capture group.  The first alternative (finishing the
group here) is preferred, implementing laziness; within it the greedy
optional consumes `.git` when the remainder is exactly `.git`. -/
def sshRepo : List Char → Option (List Char)
  | [] => some []
  | c :: rest =>
    (if c :: rest = ['.', 'g', 'i', 't'] then some [] else none) <|>
    (if c = '\n' then none else (sshRepo rest).map (c :: ·))

/-- Matcher for `(.*?)/` followed by `sshRepo`: the lazy first capture group
of the SSH regex up to a `/`, then the second group.  Returns both groups. -/
def sshOwner : List Char → Option (List Char × List Char)
  | [] => none
  | c :: rest =>
    (if c = '/' then (sshRepo rest).map (fun g2 => ([], g2)) else none) <|>
    (if c = '\n' then none else (sshOwner rest).map (fun p => (c :: p.1, p.2)))

/-- Matcher for `(?:.*?)[:/]` followed by the capture groups: the lazy host
part of the SSH regex up to the first viable `:` or `/` separator. -/
def sshAfterAt : List Char → Option (List Char × List Char)
  | [] => none
  | c :: rest =>
    (if c = ':' ∨ c = '/' then sshOwner rest else none) <|>
    (if c = '\n' then none else sshAfterAt rest)

/-- Attempt the SSH regex `git@(?:.*?)[:/](.*?)/(.*?)(?:\.git)?$` anchored at
the start of `l`. -/
def sshTryAt (l : List Char) : Option (List Char × List Char) :=
  (consumeLit ['g', 'i', 't', '@'] l).bind sshAfterAt

/-- Search (unanchored, leftmost) for the SSH regex in `l`. -/
def sshSearch (l : List Char) : Option (List Char × List Char) :=
  sshTryAt l <|>
  (match l with
   | [] => none
   | _ :: rest => sshSearch rest)

/-- Matcher for the part of `([^/]+?)(?:\.git)?$` after its first character:
lazily extend the second capture group of the HTTPS regex, preferring to
finish with the greedy optional `.git` and end of haystack. -/
def httpsFin : List Char → Option (List Char)
  | [] => some []
  | c :: rest =>
    (if c :: rest = ['.', 'g', 'i', 't'] then some [] else none) <|>
    (if c = '/' then none else (httpsFin rest).map (c :: ·))

/-- Matcher for `([^/]+?)(?:\.git)?$`: at least one non-`/` character, lazily
extended. -/
def httpsRepo : List Char → Option (List Char)
  | [] => none
  | c :: rest => if c = '/' then none else (httpsFin rest).map (c :: ·)

/-- Matcher for `([^/]+)/([^/]+?)(?:\.git)?$`: the greedy first capture group
is the maximal non-`/` span (no shorter span can be followed by the required
`/`, so greedy matching is deterministic here), then `/`, then the second
group. -/
def httpsOwner (l : List Char) : Option (List Char × List Char) :=
  match l.dropWhile (fun c => c ≠ '/') with
  | c :: rest =>
    if l.takeWhile (fun c => c ≠ '/') = [] then none
    else if c = '/' then
      (httpsRepo rest).map (fun g2 => (l.takeWhile (fun c => c ≠ '/'), g2))
    else none
  | [] => none

/-- Matcher for `(?:.*?)/` followed by the capture groups: the lazy host part
of the HTTPS regex.  At a `/` the separator interpretation is preferred;
on failure the `/` is consumed by `.*?` (`.` matches `/`). -/
def httpsHost : List Char → Option (List Char × List Char)
  | [] => none
  | c :: rest =>
    (if c = '/' then httpsOwner rest else none) <|>
    (if c = '\n' then none else httpsHost rest)

/-- Attempt the HTTPS regex `https://(?:.*?)/([^/]+)/([^/]+?)(?:\.git)?$`
anchored at the start of `l`. -/
def httpsTryAt (l : List Char) : Option (List Char × List Char) :=
  (consumeLit ['h', 't', 't', 'p', 's', ':', '/', '/'] l).bind httpsHost

/-- Search (unanchored, leftmost) for the HTTPS regex in `l`. -/
def httpsSearch (l : List Char) : Option (List Char × List Char) :=
  httpsTryAt l <|>
  (match l with
   | [] => none
   | _ :: rest => httpsSearch rest)

/-- Does `l` end with `.git`?  (`['.','g','i','t'].isSuffixOf l`). -/
def gitSuffix (l : List Char) : Bool :=
  ['.', 'g', 'i', 't'].isSuffixOf l

/-- Fuelled worker for `trimEndGit`. -/
def trimAux : Nat → List Char → List Char
  | 0, l => l
  | n + 1, l => if gitSuffix l then trimAux n (l.take (l.length - 4)) else l

/-- Embedding of Rust's `str::trim_end_matches(".git")`: repeatedly remove a
trailing `.git` until none remains. -/
def trimEndGit (l : List Char) : List Char :=
  trimAux l.length l

/-- Embedding of `url.starts_with("git@")`. -/
def startsWithGit (url : String) : Bool :=
  ['g', 'i', 't', '@'].isPrefixOf url.data

/-- The HTTPS half of `parse_git_url`: apply the HTTPS regex and, on a match,
return capture 1 and capture 2 with all trailing `.git` removed
(`trim_end_matches`).  `none` models the `exit(1)` on parse failure. -/
def httpsPart (url : String) : Option (String × String) :=
  match httpsSearch url.data with
  | some (g1, g2) => some (String.mk g1, String.mk (trimEndGit g2))
  | none => none

/-- Embedding of `parse_git_url` from the source: if the URL starts with
`git@`, try the SSH regex and return its captures on success; otherwise (or
if the SSH regex fails to match) try the HTTPS regex; `none` models the
fatal `exit(1)`. -/
def parse_git_url (url : String) : Option (String × String) :=
  match (if startsWithGit url then sshSearch url.data else none) with
  | some (g1, g2) => some (String.mk g1, String.mk (trimEndGit g2))
  | none => httpsPart url

/-- Attempt the Azure regex `https://dev\.azure\.com/([^/]+)/([^/]+)` at the
start of `l`: literal, then two greedy non-`/` groups separated by `/`.
Greedy matching of `[^/]+` followed by `/` is deterministic (no shorter
span ends at a `/`). -/
def azureTryAt (l : List Char) : Option (List Char × List Char) :=
  match consumeLit "https://dev.azure.com/".data l with
  | none => none
  | some rest =>
    let g1 := rest.takeWhile (fun c => c ≠ '/')
    match rest.dropWhile (fun c => c ≠ '/') with
    | c :: rest2 =>
      if g1 = [] then none
      else if c = '/' then
        let g2 := rest2.takeWhile (fun c => c ≠ '/')
        if g2 = [] then none else some (g1, g2)
      else none
    | [] => none

/-- Search (unanchored, leftmost) for the Azure regex in `l`. -/
def azureSearch (l : List Char) : Option (List Char × List Char) :=
  azureTryAt l <|>
  (match l with
   | [] => none
   | _ :: rest => azureSearch rest)

/-- Attempt the legacy regex `https://([^.]+)\.visualstudio\.com/([^/]+)` at
the start of `l`. -/
def vsTryAt (l : List Char) : Option (List Char × List Char) :=
  match consumeLit "https://".data l with
  | none => none
  | some rest =>
    let g1 := rest.takeWhile (fun c => c ≠ '.')
    if g1 = [] then none
    else match consumeLit ".visualstudio.com/".data (rest.dropWhile (fun c => c ≠ '.')) with
    | none => none
    | some rest2 =>
      let g2 := rest2.takeWhile (fun c => c ≠ '/')
      if g2 = [] then none else some (g1, g2)

/-- Search (unanchored, leftmost) for the legacy visualstudio regex. -/
def vsSearch (l : List Char) : Option (List Char × List Char) :=
  vsTryAt l <|>
  (match l with
   | [] => none
   | _ :: rest => vsSearch rest)

/-- Embedding of `parse_azure_url` from the source: the `dev.azure.com`
regex is tried first, then the legacy `visualstudio.com` one; `none` models
the fatal `exit(1)`. -/
def parse_azure_url (url : String) : Option (String × String) :=
  match azureSearch url.data with
  | some (g1, g2) => some (String.mk g1, String.mk g2)
  | none =>
    match vsSearch url.data with
    | some (g1, g2) => some (String.mk g1, String.mk g2)
    | none => none

/-- Embedding of Rust's `str::contains` (substring containment). -/
def containsSeg (pat : List Char) (l : List Char) : Bool :=
  pat.isPrefixOf l ||
  (match l with
   | [] => false
   | _ :: rest => containsSeg pat rest)

/-- Embedding of `determine_service` from the source: classification by
substring containment, in the source's fixed order. -/
def determine_service (url : String) : GitService :=
  if containsSeg "github.com".data url.data then GitService.GitHub
  else if containsSeg "gitlab.com".data url.data then GitService.GitLab
  else if containsSeg "bitbucket.org".data url.data then GitService.Bitbucket
  else if containsSeg "dev.azure.com".data url.data || containsSeg "visualstudio.com".data url.data then
    GitService.AzureDevOps
  else GitService.Unknown

/-- Embedding of `get_default_branch` from the source.  The repository's
remote-tracking branches are abstracted as the predicate `has`, where
`has name = true` models `repo.find_branch(name, BranchType::Remote).is_ok()`.
The candidates are probed in the source's order and the first present one is
returned. -/
def get_default_branch (has : String → Bool) (remote_name : String) : Option String :=
  (["main", "master", "develop", "trunk"]).find? (fun branch_name => has (remote_name ++ "/" ++ branch_name))

/-- Embedding of the target-branch resolution in `main`: an explicit
`--target` wins; otherwise `get_default_branch`, falling back to the literal
`"main"`. -/
def resolveTarget (target : Option String) (has : String → Bool) (remote_name : String) : String :=
  match target with
  | some t => t
  | none =>
    match get_default_branch has remote_name with
    | some branch => branch
    | none => "main"

/-- Modelled from the spec and the `url` crate (a dependency, not part of
`src/`): the UTF-8 bytes of one character, as produced by Rust's
`str::as_bytes`. -/
def utf8Bytes (c : Char) : List Nat :=
  let n := c.toNat
  if n < 0x80 then [n]
  else if n < 0x800 then
    [0xC0 ||| (n >>> 6), 0x80 ||| (n &&& 0x3F)]
  else if n < 0x10000 then
    [0xE0 ||| (n >>> 12), 0x80 ||| ((n >>> 6) &&& 0x3F), 0x80 ||| (n &&& 0x3F)]
  else
    [0xF0 ||| (n >>> 18), 0x80 ||| ((n >>> 12) &&& 0x3F), 0x80 ||| ((n >>> 6) &&& 0x3F), 0x80 ||| (n &&& 0x3F)]

/-- The UTF-8 bytes of a list of characters. -/
def listUtf8 : List Char → List Nat
  | [] => []
  | c :: cs => utf8Bytes c ++ listUtf8 cs

/-- The UTF-8 bytes of a string (Rust's `str::as_bytes`). -/
def strUtf8 (s : String) : List Nat :=
  listUtf8 s.data

/-- Modelled from the spec and the `url` crate: is the byte left unchanged by
`form_urlencoded::byte_serialize`?  (ASCII alphanumerics and `*-._`.) -/
def safeByte (b : Nat) : Bool :=
  (0x30 ≤ b && b ≤ 0x39) || (0x41 ≤ b && b ≤ 0x5A) || (0x61 ≤ b && b ≤ 0x7A) ||
  b = 0x2A || b = 0x2D || b = 0x2E || b = 0x5F

/-- Uppercase hexadecimal digit for `n < 16`. -/
def hexDigitChar (n : Nat) : Char :=
  if n < 10 then Char.ofNat (0x30 + n) else Char.ofNat (0x41 + n - 10)

/-- Modelled from the spec and the `url` crate: how
`form_urlencoded::byte_serialize` renders one byte — space becomes `+`,
safe bytes stay themselves, everything else becomes `%XX` with uppercase
hexadecimal digits. -/
def serializeByte (b : Nat) : List Char :=
  if b = 0x20 then ['+']
  else if safeByte b then [Char.ofNat b]
  else ['%', hexDigitChar (b / 16), hexDigitChar (b % 16)]

/-- Serialize a byte sequence (`form_urlencoded::byte_serialize(..).collect()`). -/
def serializeAll : List Nat → List Char
  | [] => []
  | b :: bs => serializeByte b ++ serializeAll bs

/-- The form-urlencoded encoding of a string, as the source computes it:
`form_urlencoded::byte_serialize(s.as_bytes()).collect::<String>()`. -/
def encodeForm (s : String) : String :=
  String.mk (serializeAll (strUtf8 s))

/-- Hexadecimal value of a digit character, if any. -/
def hexVal (c : Char) : Option Nat :=
  if '0' ≤ c ∧ c ≤ '9' then some (c.toNat - 48)
  else if 'A' ≤ c ∧ c ≤ 'F' then some (c.toNat - 55)
  else if 'a' ≤ c ∧ c ≤ 'f' then some (c.toNat - 87)
  else none

/-- Modelled from the spec: form-urlencoded decoding of a query value back to
its byte sequence (`+` is a space, `%XX` is a byte, anything else stands for
its own UTF-8 bytes; a malformed `%` passes through unchanged).  This is the
decoding half of the spec's round-trip property; it does not appear in
`src/` itself. -/
def formDecode : List Char → List Nat
  | [] => []
  | c :: rest =>
    if c = '+' then 0x20 :: formDecode rest
    else if c = '%' then
      match rest with
      | a :: b :: rest2 =>
        match hexVal a, hexVal b with
        | some x, some y => (16 * x + y) :: formDecode rest2
        | _, _ => utf8Bytes c ++ formDecode (a :: b :: rest2)
      | [a] => utf8Bytes c ++ formDecode [a]
      | [] => utf8Bytes c ++ formDecode []
    else utf8Bytes c ++ formDecode rest
termination_by l => l.length
decreasing_by all_goals simp_wf <;> omega

/-- Embedding of `build_pr_url` from the source.  `none` models the fatal
`exit(1)` taken for `GitService::Unknown` and for an unparseable synthesized
Azure URL. -/
def build_pr_url (service : GitService) (owner repo_name branch_name target_branch : String)
    (title description : Option String) (draft : Bool) : Option String :=
  match service with
  | GitService.GitHub =>
    some ("https://github.com/" ++ owner ++ "/" ++ repo_name ++ "/compare/" ++
      target_branch ++ "..." ++ branch_name ++ "?expand=1" ++
      (match title with
       | some title_str => "&title=" ++ encodeForm title_str
       | none => "") ++
      (match description with
       | some desc_str => "&body=" ++ encodeForm desc_str
       | none => "") ++
      (if draft then "&draft=1" else ""))
  | GitService.GitLab =>
    some ("https://gitlab.com/" ++ owner ++ "/" ++ repo_name ++
      "/-/merge_requests/new?merge_request%5Bsource_branch%5D=" ++ branch_name ++
      "&merge_request%5Btarget_branch%5D=" ++ target_branch ++
      (match title with
       | some title_str => "&merge_request%5Btitle%5D=" ++ encodeForm title_str
       | none => "") ++
      (match description with
       | some desc_str => "&merge_request%5Bdescription%5D=" ++ encodeForm desc_str
       | none => "") ++
      (if draft then "&merge_request%5Bdraft%5D=true" else ""))
  | GitService.Bitbucket =>
    some ("https://bitbucket.org/" ++ owner ++ "/" ++ repo_name ++
      "/pull-requests/new?source=" ++ branch_name ++ "&dest=" ++ target_branch ++
      (match title with
       | some title_str => "&title=" ++ encodeForm title_str
       | none => "") ++
      (match description with
       | some desc_str => "&description=" ++ encodeForm desc_str
       | none => ""))
  | GitService.AzureDevOps =>
    match parse_azure_url ("https://dev.azure.com/" ++ owner ++ "/" ++ repo_name) with
    | none => none
    | some (org, project) =>
      some ("https://dev.azure.com/" ++ org ++ "/" ++ project ++ "/_git/" ++ repo_name ++
        "/pullrequestcreate?sourceRef=" ++ branch_name ++ "&targetRef=" ++ target_branch ++
        (match title with
         | some title_str => "&title=" ++ encodeForm title_str
         | none => "") ++
        (match description with
         | some desc_str => "&description=" ++ encodeForm desc_str
         | none => "") ++
        (if draft then "&isDraft=true" else ""))
  | GitService.Unknown => none

/-- `pat` occurs verbatim as a contiguous segment of `l`. -/
def SegIn (pat l : List Char) : Prop := ∃ p q, l = p ++ (pat ++ q)

/-- The query-parameter prefix each provider uses for the PR title, as it
appears in `build_pr_url`. -/
def titleKey : GitService → String
  | GitService.GitLab => "&merge_request%5Btitle%5D="
  | GitService.Unknown => ""
  | _ => "&title="

/-- The query-parameter prefix each provider uses for the PR description, as
it appears in `build_pr_url`. -/
def descKey : GitService → String
  | GitService.GitHub => "&body="
  | GitService.GitLab => "&merge_request%5Bdescription%5D="
  | GitService.Bitbucket => "&description="
  | GitService.AzureDevOps => "&description="
  | GitService.Unknown => ""

/-- The fragment each provider appends when the draft flag is set, as it
appears in `build_pr_url` (empty for Bitbucket, which has no draft
parameter). -/
def draftSuffix (service : GitService) (draft : Bool) : String :=
  if draft then
    match service with
    | GitService.GitHub => "&draft=1"
    | GitService.GitLab => "&merge_request%5Bdraft%5D=true"
    | GitService.Bitbucket => ""
    | GitService.AzureDevOps => "&isDraft=true"
    | GitService.Unknown => ""
  else ""

/-! ## Helper lemmas -/

theorem strData (s t : String) : (s ++ t).data = s.data ++ t.data := rfl

theorem strEq {s t : String} (h : s.data = t.data) : s = t := congrArg String.mk h

theorem dataNeNil {s : String} (h : s ≠ "") : s.data ≠ [] :=
  fun hd => h (strEq (hd.trans rfl))

theorem consumeLit_self : ∀ (p l : List Char), consumeLit p (p ++ l) = some l
  | [], _ => rfl
  | _ :: ps, l => by simp [consumeLit, consumeLit_self ps l]

theorem takeWhile_all_append (p : Char → Bool) :
    ∀ (l m : List Char), (∀ c ∈ l, p c = true) →
      (l ++ m).takeWhile p = l ++ m.takeWhile p
  | [], _, _ => rfl
  | c :: l, m, h => by
    simp only [List.cons_append, List.takeWhile_cons, h c (by simp)]
    simp [takeWhile_all_append p l m (fun d hd => h d (by simp [hd]))]

theorem dropWhile_all_append (p : Char → Bool) :
    ∀ (l m : List Char), (∀ c ∈ l, p c = true) →
      (l ++ m).dropWhile p = m.dropWhile p
  | [], _, _ => rfl
  | c :: l, m, h => by
    simp only [List.cons_append, List.dropWhile_cons, h c (by simp)]
    simp [dropWhile_all_append p l m (fun d hd => h d (by simp [hd]))]

theorem takeWhile_all (p : Char → Bool) (l : List Char) (h : ∀ c ∈ l, p c = true) :
    l.takeWhile p = l := by
  have := takeWhile_all_append p l [] h
  simpa using this

theorem gitSuffix_trimAux : ∀ (n : Nat) (l : List Char), l.length ≤ n →
    gitSuffix (trimAux n l) = false
  | 0, l, h => by
    have : l = [] := List.eq_nil_of_length_eq_zero (Nat.le_zero.mp h)
    subst this; decide
  | n + 1, l, h => by
    by_cases hs : gitSuffix l
    · have hlen : (l.take (l.length - 4)).length ≤ n := by
        simp only [List.length_take]
        omega
      simp only [trimAux, hs, if_true]
      exact gitSuffix_trimAux n _ hlen
    · simp [trimAux, hs]

theorem gitSuffix_trimEndGit (l : List Char) : gitSuffix (trimEndGit l) = false :=
  gitSuffix_trimAux l.length l (Nat.le_refl _)

theorem SegIn.refl (pat : List Char) : SegIn pat pat := ⟨[], [], by simp⟩

theorem SegIn.here (pat post : List Char) : SegIn pat (pat ++ post) := ⟨[], post, rfl⟩

theorem SegIn.shift (l₀ : List Char) {pat l : List Char} (h : SegIn pat l) :
    SegIn pat (l₀ ++ l) := by
  obtain ⟨p, q, e⟩ := h
  exact ⟨l₀ ++ p, q, by simp [e, List.append_assoc]⟩

theorem char_toNat_lt (c : Char) : c.toNat < 0x110000 := by
  rcases c.valid with h | ⟨_, h⟩ <;> simp [Char.toNat] <;> omega

theorem char_ofNat_toNat {n : Nat} (h : n.isValidChar) : (Char.ofNat n).toNat = n := by
  simp [Char.ofNat, h, Char.ofNatAux, Char.toNat, UInt32.toNat, BitVec.toNat_ofNatLt]

theorem utf8Bytes_ascii {c : Char} (h : c.toNat < 0x80) : utf8Bytes c = [c.toNat] := by
  simp [utf8Bytes, h]

theorem utf8Bytes_lt (c : Char) : ∀ b ∈ utf8Bytes c, b < 256 := by
  intro b hb
  have hv := char_toNat_lt c
  unfold utf8Bytes at hb
  by_cases h1 : c.toNat < 0x80
  · simp [h1] at hb; omega
  · by_cases h2 : c.toNat < 0x800
    · simp [h1, h2] at hb
      have hs : c.toNat >>> 6 < 256 := by rw [Nat.shiftRight_eq_div_pow]; omega
      have ha : c.toNat &&& 0x3F ≤ 0x3F := Nat.and_le_right
      rcases hb with hb | hb
      · subst hb
        exact Nat.or_lt_two_pow (n := 8) (by norm_num) hs
      · subst hb
        exact Nat.or_lt_two_pow (n := 8) (by norm_num) (by omega)
    · by_cases h3 : c.toNat < 0x10000
      · simp [h1, h2, h3] at hb
        have hs : c.toNat >>> 12 < 256 := by rw [Nat.shiftRight_eq_div_pow]; omega
        have ha1 : (c.toNat >>> 6) &&& 0x3F ≤ 0x3F := Nat.and_le_right
        have ha2 : c.toNat &&& 0x3F ≤ 0x3F := Nat.and_le_right
        rcases hb with hb | hb | hb <;> subst hb
        · exact Nat.or_lt_two_pow (n := 8) (by norm_num) hs
        · exact Nat.or_lt_two_pow (n := 8) (by norm_num) (by omega)
        · exact Nat.or_lt_two_pow (n := 8) (by norm_num) (by omega)
      · simp [h1, h2, h3] at hb
        have hs : c.toNat >>> 18 < 256 := by rw [Nat.shiftRight_eq_div_pow]; omega
        have ha1 : (c.toNat >>> 12) &&& 0x3F ≤ 0x3F := Nat.and_le_right
        have ha2 : (c.toNat >>> 6) &&& 0x3F ≤ 0x3F := Nat.and_le_right
        have ha3 : c.toNat &&& 0x3F ≤ 0x3F := Nat.and_le_right
        rcases hb with hb | hb | hb | hb <;> subst hb
        · exact Nat.or_lt_two_pow (n := 8) (by norm_num) hs
        · exact Nat.or_lt_two_pow (n := 8) (by norm_num) (by omega)
        · exact Nat.or_lt_two_pow (n := 8) (by norm_num) (by omega)
        · exact Nat.or_lt_two_pow (n := 8) (by norm_num) (by omega)

theorem listUtf8_lt : ∀ (l : List Char), ∀ b ∈ listUtf8 l, b < 256
  | [], _, hb => by simp [listUtf8] at hb
  | c :: cs, b, hb => by
    simp only [listUtf8, List.mem_append] at hb
    rcases hb with hb | hb
    · exact utf8Bytes_lt c b hb
    · exact listUtf8_lt cs b hb

theorem safe_facts {b : Nat} (h : safeByte b = true) :
    b < 128 ∧ b ≠ 43 ∧ b ≠ 37 ∧ b ≠ 32 := by
  simp [safeByte] at h
  omega

theorem hexVal_hexDigitChar (n : Nat) (h : n < 16) :
    hexVal (hexDigitChar n) = some n := by
  interval_cases n <;> decide

theorem orElse_eq_some_cases {α : Type} {x y : Option α} {z : α}
    (h : (x <|> y) = some z) : x = some z ∨ (x = none ∧ y = some z) := by
  cases x <;> simp_all

theorem azureTryAt_synth (o r : String) (ho : o.data ≠ []) (hr : r.data ≠ [])
    (ho2 : ∀ c ∈ o.data, c ≠ '/') (hr2 : ∀ c ∈ r.data, c ≠ '/') :
    azureTryAt ("https://dev.azure.com/" ++ o ++ "/" ++ r).data = some (o.data, r.data) := by
  have hdata : ("https://dev.azure.com/" ++ o ++ "/" ++ r).data =
      "https://dev.azure.com/".data ++ (o.data ++ '/' :: r.data) := by
    simp [strData, List.append_assoc]
  have htw : (o.data ++ '/' :: r.data).takeWhile (fun c => c ≠ '/') = o.data := by
    rw [takeWhile_all_append _ _ _ (by intro c hc; simpa using ho2 c hc)]
    simp [List.takeWhile_cons]
  have hdw : (o.data ++ '/' :: r.data).dropWhile (fun c => c ≠ '/') = '/' :: r.data := by
    rw [dropWhile_all_append _ _ _ (by intro c hc; simpa using ho2 c hc)]
    simp [List.dropWhile_cons]
  have htr : r.data.takeWhile (fun c => c ≠ '/') = r.data :=
    takeWhile_all _ _ (by intro c hc; simpa using hr2 c hc)
  rw [azureTryAt.eq_def, hdata, consumeLit_self]
  simp only [htw, hdw, htr]
  simp [ho, hr]

theorem parse_azure_synth (o r : String) (ho : o ≠ "") (hr : r ≠ "")
    (ho2 : ∀ c ∈ o.data, c ≠ '/') (hr2 : ∀ c ∈ r.data, c ≠ '/') :
    parse_azure_url ("https://dev.azure.com/" ++ o ++ "/" ++ r) = some (o, r) := by
  have h1 : azureSearch ("https://dev.azure.com/" ++ o ++ "/" ++ r).data =
      some (o.data, r.data) := by
    rw [azureSearch.eq_def]
    rw [azureTryAt_synth o r (dataNeNil ho) (dataNeNil hr) ho2 hr2]
    rfl
  rw [parse_azure_url.eq_def, h1]

theorem formDecode_plus (rest : List Char) :
    formDecode ('+' :: rest) = 0x20 :: formDecode rest := by
  rw [formDecode.eq_def]
  simp

theorem formDecode_lit {c : Char} (h1 : c ≠ '+') (h2 : c ≠ '%') (rest : List Char) :
    formDecode (c :: rest) = utf8Bytes c ++ formDecode rest := by
  rw [formDecode.eq_def]
  simp [h1, h2]

theorem formDecode_pct {a b : Char} {x y : Nat} (ha : hexVal a = some x)
    (hb : hexVal b = some y) (rest : List Char) :
    formDecode ('%' :: a :: b :: rest) = (16 * x + y) :: formDecode rest := by
  rw [formDecode.eq_def]
  simp [ha, hb]

theorem formDecode_serializeAll : ∀ (bs : List Nat), (∀ b ∈ bs, b < 256) →
    formDecode (serializeAll bs) = bs
  | [], _ => by
    rw [show serializeAll ([] : List Nat) = [] from rfl, formDecode.eq_def]
  | b :: bs, h => by
    have hb : b < 256 := h b (List.mem_cons_self b bs)
    have ih := formDecode_serializeAll bs (fun x hx => h x (List.mem_cons_of_mem _ hx))
    show formDecode (serializeByte b ++ serializeAll bs) = b :: bs
    by_cases h32 : b = 32
    · subst h32
      rw [show serializeByte 32 = ['+'] from rfl, List.singleton_append,
        formDecode_plus, ih]
    · by_cases hsafe : safeByte b = true
      · obtain ⟨h128, h43, h37, _⟩ := safe_facts hsafe
        have hv : Nat.isValidChar b := Or.inl (by omega)
        have ht : (Char.ofNat b).toNat = b := char_ofNat_toNat hv
        have hne1 : Char.ofNat b ≠ '+' := by
          intro he
          exact h43 (ht.symm.trans (by rw [he]; rfl))
        have hne2 : Char.ofNat b ≠ '%' := by
          intro he
          exact h37 (ht.symm.trans (by rw [he]; rfl))
        have hser : serializeByte b = [Char.ofNat b] := by
          simp [serializeByte, h32, hsafe]
        rw [hser, List.singleton_append, formDecode_lit hne1 hne2,
          utf8Bytes_ascii (by omega : (Char.ofNat b).toNat < 0x80), ht, ih,
          List.singleton_append]
      · have hser : serializeByte b =
            ['%', hexDigitChar (b / 16), hexDigitChar (b % 16)] := by
          simp [serializeByte, h32, hsafe]
        have hx : hexVal (hexDigitChar (b / 16)) = some (b / 16) :=
          hexVal_hexDigitChar _ (by omega)
        have hy : hexVal (hexDigitChar (b % 16)) = some (b % 16) :=
          hexVal_hexDigitChar _ (by omega)
        rw [hser]
        simp only [List.cons_append, List.nil_append]
        rw [formDecode_pct hx hy, ih]
        congr 1
        omega

theorem encodeForm_decode (s : String) :
    formDecode (encodeForm s).data = strUtf8 s := by
  have h1 : (encodeForm s).data = serializeAll (strUtf8 s) := rfl
  rw [h1]
  exact formDecode_serializeAll (strUtf8 s) (fun b hb => listUtf8_lt s.data b hb)

theorem httpsOwner_ne {l g1 g2 : List Char}
    (h : httpsOwner l = some (g1, g2)) : g1 ≠ [] := by
  unfold httpsOwner at h
  split at h
  · split at h
    · cases h
    · rename_i hne
      split at h
      · rw [Option.map_eq_some'] at h
        obtain ⟨g2', _, hp⟩ := h
        cases hp
        exact hne
      · cases h
  · cases h

theorem httpsHost_ne : ∀ {l g1 g2 : List Char},
    httpsHost l = some (g1, g2) → g1 ≠ []
  | [], _, _, h => by cases h
  | c :: rest, g1, g2, h => by
    simp only [httpsHost] at h
    rcases orElse_eq_some_cases h with h1 | ⟨_, h2⟩
    · by_cases hc : c = '/'
      · rw [if_pos hc] at h1
        exact httpsOwner_ne h1
      · rw [if_neg hc] at h1
        cases h1
    · by_cases hn : c = '\n'
      · rw [if_pos hn] at h2
        cases h2
      · rw [if_neg hn] at h2
        exact httpsHost_ne h2

theorem httpsTryAt_ne {l g1 g2 : List Char}
    (h : httpsTryAt l = some (g1, g2)) : g1 ≠ [] := by
  unfold httpsTryAt at h
  rw [Option.bind_eq_some] at h
  obtain ⟨rest, _, h2⟩ := h
  exact httpsHost_ne h2

theorem httpsSearch_ne : ∀ {l g1 g2 : List Char},
    httpsSearch l = some (g1, g2) → g1 ≠ []
  | l, g1, g2, h => by
    rw [httpsSearch.eq_def] at h
    rcases orElse_eq_some_cases h with h1 | ⟨_, h2⟩
    · exact httpsTryAt_ne h1
    · match l, h2 with
      | [], h2 => cases h2
      | _ :: rest, h2 => exact httpsSearch_ne h2

theorem strDataEmpty : ("" : String).data = [] := rfl

theorem trimEndGit_id {l : List Char} (h : gitSuffix l = false) : trimEndGit l = l := by
  unfold trimEndGit
  cases hl : l.length with
  | zero => rfl
  | succ n => simp [trimAux, h]

theorem sshRepo_append_git : ∀ (r : List Char), (∀ c ∈ r, c ≠ '\n') →
    sshRepo (r ++ ['.', 'g', 'i', 't']) = some r
  | [], _ => by decide
  | c :: r, h => by
    have hlen : c :: (r ++ ['.', 'g', 'i', 't']) ≠ ['.', 'g', 'i', 't'] := by
      intro he
      have := congrArg List.length he
      simp [List.length_append] at this
    have hc : c ≠ '\n' := h c (List.mem_cons_self c r)
    simp only [List.cons_append, sshRepo, List.append_eq]
    rw [if_neg hlen, if_neg hc,
      sshRepo_append_git r (fun d hd => h d (List.mem_cons_of_mem _ hd))]
    rfl

theorem sshOwner_append : ∀ (o m : List Char), (∀ c ∈ o, c ≠ '/' ∧ c ≠ '\n') →
    ∀ {g2 : List Char}, sshRepo m = some g2 → sshOwner (o ++ '/' :: m) = some (o, g2)
  | [], m, _, g2, hm => by simp [sshOwner, hm]
  | c :: o, m, h, g2, hm => by
    obtain ⟨hc1, hc2⟩ := h c (List.mem_cons_self c o)
    simp only [List.cons_append, sshOwner, List.append_eq]
    rw [if_neg hc1, if_neg hc2,
      sshOwner_append o m (fun d hd => h d (List.mem_cons_of_mem _ hd)) hm]
    rfl

theorem sshAfterAt_sep : ∀ (hst m : List Char),
    (∀ c ∈ hst, c ≠ ':' ∧ c ≠ '/' ∧ c ≠ '\n') →
    ∀ {res : List Char × List Char}, sshOwner m = some res →
      sshAfterAt (hst ++ ':' :: m) = some res
  | [], m, _, res, hm => by simp [sshAfterAt, hm]
  | c :: hst, m, h, res, hm => by
    obtain ⟨hc1, hc2, hc3⟩ := h c (List.mem_cons_self c hst)
    have hor : ¬(c = ':' ∨ c = '/') := by tauto
    simp only [List.cons_append, sshAfterAt, List.append_eq]
    rw [if_neg hor, if_neg hc3,
      sshAfterAt_sep hst m (fun d hd => h d (List.mem_cons_of_mem _ hd)) hm]
    rfl

theorem httpsFin_append_git : ∀ (r : List Char), (∀ c ∈ r, c ≠ '/') →
    httpsFin (r ++ ['.', 'g', 'i', 't']) = some r
  | [], _ => by decide
  | c :: r, h => by
    have hlen : c :: (r ++ ['.', 'g', 'i', 't']) ≠ ['.', 'g', 'i', 't'] := by
      intro he
      have := congrArg List.length he
      simp [List.length_append] at this
    have hc : c ≠ '/' := h c (List.mem_cons_self c r)
    simp only [List.cons_append, httpsFin, List.append_eq]
    rw [if_neg hlen, if_neg hc,
      httpsFin_append_git r (fun d hd => h d (List.mem_cons_of_mem _ hd))]
    rfl

theorem httpsRepo_append_git (r : List Char) (h : ∀ c ∈ r, c ≠ '/') (hne : r ≠ []) :
    httpsRepo (r ++ ['.', 'g', 'i', 't']) = some r := by
  match r, hne with
  | c :: r, _ =>
    have hc : c ≠ '/' := h c (List.mem_cons_self c r)
    simp only [List.cons_append, httpsRepo, List.append_eq]
    rw [if_neg hc,
      httpsFin_append_git r (fun d hd => h d (List.mem_cons_of_mem _ hd))]
    rfl

theorem httpsOwner_append (o m : List Char) (ho : ∀ c ∈ o, c ≠ '/') (hne : o ≠ [])
    {g2 : List Char} (hm : httpsRepo m = some g2) :
    httpsOwner (o ++ '/' :: m) = some (o, g2) := by
  have htw : (o ++ '/' :: m).takeWhile (fun c => c ≠ '/') = o := by
    rw [takeWhile_all_append _ _ _ (by intro c hc; simpa using ho c hc)]
    simp [List.takeWhile_cons]
  have hdw : (o ++ '/' :: m).dropWhile (fun c => c ≠ '/') = '/' :: m := by
    rw [dropWhile_all_append _ _ _ (by intro c hc; simpa using ho c hc)]
    simp [List.dropWhile_cons]
  unfold httpsOwner
  rw [htw, hdw]
  simp [hne, hm]

theorem httpsHost_sep : ∀ (hst m : List Char), (∀ c ∈ hst, c ≠ '/' ∧ c ≠ '\n') →
    ∀ {res : List Char × List Char}, httpsOwner m = some res →
      httpsHost (hst ++ '/' :: m) = some res
  | [], m, _, res, hm => by simp [httpsHost, hm]
  | c :: hst, m, h, res, hm => by
    obtain ⟨hc1, hc2⟩ := h c (List.mem_cons_self c hst)
    simp only [List.cons_append, httpsHost, List.append_eq]
    rw [if_neg hc1, if_neg hc2,
      httpsHost_sep hst m (fun d hd => h d (List.mem_cons_of_mem _ hd)) hm]
    rfl

theorem sshSearch_of_tryAt {l : List Char} {res : List Char × List Char}
    (h : sshTryAt l = some res) : sshSearch l = some res := by
  rw [sshSearch.eq_def, h]
  rfl

theorem httpsSearch_of_tryAt {l : List Char} {res : List Char × List Char}
    (h : httpsTryAt l = some res) : httpsSearch l = some res := by
  rw [httpsSearch.eq_def, h]
  rfl

theorem parse_ssh_general (host o r : String)
    (hh : ∀ c ∈ host.data, c ≠ ':' ∧ c ≠ '/' ∧ c ≠ '\n')
    (ho : ∀ c ∈ o.data, c ≠ '/' ∧ c ≠ '\n')
    (hr : ∀ c ∈ r.data, c ≠ '\n')
    (hg : gitSuffix r.data = false) :
    parse_git_url ("git@" ++ host ++ ":" ++ o ++ "/" ++ r ++ ".git") = some (o, r) := by
  have hdata : ("git@" ++ host ++ ":" ++ o ++ "/" ++ r ++ ".git").data =
      'g' :: 'i' :: 't' :: '@' ::
        (host.data ++ ':' :: (o.data ++ '/' :: (r.data ++ ['.', 'g', 'i', 't']))) := by
    simp only [strData, List.append_assoc]
    rfl
  have hrepo := sshRepo_append_git r.data hr
  have hown := sshOwner_append o.data _ ho hrepo
  have hafter := sshAfterAt_sep host.data _ hh hown
  have htry : sshTryAt ("git@" ++ host ++ ":" ++ o ++ "/" ++ r ++ ".git").data =
      some (o.data, r.data) := by
    rw [hdata]
    simp only [sshTryAt, consumeLit]
    simp [hafter]
  have hsearch := sshSearch_of_tryAt htry
  have hstart : startsWithGit ("git@" ++ host ++ ":" ++ o ++ "/" ++ r ++ ".git") = true := by
    rw [startsWithGit, hdata]
    simp [List.isPrefixOf]
  rw [hdata] at hsearch
  simp [parse_git_url, hstart, hsearch, trimEndGit_id hg]

theorem parse_https_general (host o r : String)
    (hh : ∀ c ∈ host.data, c ≠ '/' ∧ c ≠ '\n')
    (ho : ∀ c ∈ o.data, c ≠ '/') (hone : o.data ≠ [])
    (hr : ∀ c ∈ r.data, c ≠ '/') (hrne : r.data ≠ [])
    (hg : gitSuffix r.data = false) :
    parse_git_url ("https://" ++ host ++ "/" ++ o ++ "/" ++ r ++ ".git") = some (o, r) := by
  have hdata : ("https://" ++ host ++ "/" ++ o ++ "/" ++ r ++ ".git").data =
      'h' :: 't' :: 't' :: 'p' :: 's' :: ':' :: '/' :: '/' ::
        (host.data ++ '/' :: (o.data ++ '/' :: (r.data ++ ['.', 'g', 'i', 't']))) := by
    simp only [strData, List.append_assoc]
    rfl
  have hrepo := httpsRepo_append_git r.data hr hrne
  have hown := httpsOwner_append o.data _ ho hone hrepo
  have hhost := httpsHost_sep host.data _ hh hown
  have htry : httpsTryAt ("https://" ++ host ++ "/" ++ o ++ "/" ++ r ++ ".git").data =
      some (o.data, r.data) := by
    rw [hdata]
    simp only [httpsTryAt, consumeLit]
    simp [hhost]
  have hsearch := httpsSearch_of_tryAt htry
  have hstart : startsWithGit ("https://" ++ host ++ "/" ++ o ++ "/" ++ r ++ ".git") = false := by
    rw [startsWithGit, hdata]
    simp [List.isPrefixOf]
  rw [hdata] at hsearch
  simp [parse_git_url, httpsPart, hstart, hsearch, trimEndGit_id hg]

/-! ## Claims -/

/-- Claim C3 (confirmed): for every owner, repository, source branch, target
branch, title and description, `build_pr_url` for Bitbucket returns the same
URL whether the draft flag is set or unset — the Bitbucket branch has no
draft parameter and never inspects the flag. -/
theorem c3_bitbucket_draft_no_effect (o r s t : String) (ti d : Option String) :
    build_pr_url GitService.Bitbucket o r s t ti d true =
      build_pr_url GitService.Bitbucket o r s t ti d false := rfl

/-- Claim C4 (confirmed): an SSH-style remote URL `git@host:owner/repo.git`
and an HTTPS-style remote URL `https://host/owner/repo.git` referring to the
same owner/repo parse to the identical pair `(owner, repo)`, for every host
and every non-empty owner and repo made of URL-safe characters (no `/`, `:`
in the host, no newline, and repo not itself ending in `.git`).
Instantiating host := `github.com`, owner := `acme`, repo := `widget` gives
the spec's example: both URLs yield `("acme", "widget")`. -/
theorem c4_ssh_https_agree (host o r : String)
    (hh : ∀ c ∈ host.data, c ≠ ':' ∧ c ≠ '/' ∧ c ≠ '\n')
    (ho : ∀ c ∈ o.data, c ≠ '/' ∧ c ≠ '\n') (hone : o.data ≠ [])
    (hr : ∀ c ∈ r.data, c ≠ '/' ∧ c ≠ '\n') (hrne : r.data ≠ [])
    (hg : gitSuffix r.data = false) :
    parse_git_url ("git@" ++ host ++ ":" ++ o ++ "/" ++ r ++ ".git") = some (o, r) ∧
    parse_git_url ("https://" ++ host ++ "/" ++ o ++ "/" ++ r ++ ".git") = some (o, r) :=
  ⟨parse_ssh_general host o r hh ho (fun c hc => (hr c hc).2) hg,
   parse_https_general host o r (fun c hc => ⟨(hh c hc).2.1, (hh c hc).2.2⟩)
     (fun c hc => (ho c hc).1) hone (fun c hc => (hr c hc).1) hrne hg⟩

/-- Witness for C4 at the spec's example: `git@github.com:acme/widget.git`
and `https://github.com/acme/widget.git` both parse to `("acme", "widget")`. -/
theorem c4_ssh_https_agree_witness :
    parse_git_url "git@github.com:acme/widget.git" = some ("acme", "widget") ∧
    parse_git_url "https://github.com/acme/widget.git" = some ("acme", "widget") :=
  c4_ssh_https_agree "github.com" "acme" "widget" (by decide) (by decide)
    (by decide) (by decide) (by decide) (by decide)

/-- Counterexample for C5: the SSH form `user@host:owner/repo.git` with a user
name other than `git` is claimed by the spec to be tried first, but
`parse_git_url` only attempts the SSH regex when the URL starts with the
literal `git@`, so `alice@github.com:acme/widget.git` is not parsed at all
(the run aborts), instead of yielding `("acme", "widget")`. -/
theorem c5_counterexample :
    parse_git_url "alice@github.com:acme/widget.git" = none := by decide

/-- Claim C5 (corrected): `parse_git_url` tries the SSH regex only when the
URL starts with the literal prefix `git@` (not for arbitrary user names);
when that attempt matches, its captures are returned and the HTTPS pattern is
not consulted; otherwise — no `git@` prefix, or the SSH regex fails to
match — the HTTPS pattern is tried; if neither form matches, the run aborts
fatally. -/
theorem c5_parse_order :
    (∀ (url : String) (g1 g2 : List Char), startsWithGit url = true →
        sshSearch url.data = some (g1, g2) →
        parse_git_url url = some (String.mk g1, String.mk (trimEndGit g2))) ∧
    (∀ url : String, startsWithGit url = false → parse_git_url url = httpsPart url) ∧
    (∀ url : String, sshSearch url.data = none → parse_git_url url = httpsPart url) ∧
    (∀ url : String, startsWithGit url = false ∨ sshSearch url.data = none →
        httpsSearch url.data = none → parse_git_url url = none) := by
  refine ⟨?_, ?_, ?_, ?_⟩
  · intro url g1 g2 h hs
    simp [parse_git_url, h, hs]
  · intro url h
    simp [parse_git_url, h]
  · intro url hs
    by_cases h : startsWithGit url
    · simp [parse_git_url, h, hs]
    · simp [parse_git_url, h]
  · intro url h hh
    rcases h with h | h
    · simp [parse_git_url, httpsPart, h, hh]
    · by_cases hg : startsWithGit url
      · simp [parse_git_url, httpsPart, hg, h, hh]
      · simp [parse_git_url, httpsPart, hg, hh]

/-- Witness for C5: a `git@` URL with a matching SSH regex takes the SSH
path; a non-`git@` URL goes straight to the HTTPS attempt; a `git@` URL on
which the SSH regex fails also falls through to the HTTPS attempt; and a URL
matching neither form aborts. -/
theorem c5_parse_order_witness :
    parse_git_url "git@github.com:acme/widget.git" =
      some (String.mk "acme".data, String.mk (trimEndGit "widget".data)) ∧
    parse_git_url "ftp://host/x" = httpsPart "ftp://host/x" ∧
    parse_git_url "git@host" = httpsPart "git@host" ∧
    parse_git_url "git@host" = none :=
  ⟨c5_parse_order.1 "git@github.com:acme/widget.git" "acme".data "widget".data
      (by decide) (by decide),
   c5_parse_order.2.1 "ftp://host/x" (by decide),
   c5_parse_order.2.2.1 "git@host" (by decide),
   c5_parse_order.2.2.2 "git@host" (Or.inr (by decide)) (by decide)⟩

/-- Counterexample for C6: `git@host:/` parses successfully but both returned
components are empty, contradicting the claimed non-emptiness invariant. -/
theorem c6_counterexample : parse_git_url "git@host:/" = some ("", "") := by decide

/-- Claim C6 (corrected): a successful parse does not guarantee non-empty
components (the SSH pattern's capture groups may be empty); what does hold is
that for a URL not starting with `git@` — i.e. one parsed by the HTTPS
pattern, whose owner group is `[^/]+` — the returned owner is non-empty. -/
theorem c6_https_owner_nonempty (url o r : String)
    (hng : startsWithGit url = false) (h : parse_git_url url = some (o, r)) :
    o ≠ "" := by
  have h2 : httpsPart url = some (o, r) := by
    simpa [parse_git_url, hng] using h
  unfold httpsPart at h2
  cases hs : httpsSearch url.data with
  | none => rw [hs] at h2; cases h2
  | some p =>
    obtain ⟨g1, g2⟩ := p
    rw [hs] at h2
    simp only [Option.some.injEq, Prod.mk.injEq] at h2
    obtain ⟨h4, _⟩ := h2
    subst h4
    intro he
    exact httpsSearch_ne hs (congrArg String.data he)

/-- Witness for C6: the owner parsed from `https://github.com/acme/widget.git`
is non-empty. -/
theorem c6_https_owner_nonempty_witness : ("acme" : String) ≠ "" :=
  c6_https_owner_nonempty "https://github.com/acme/widget.git" "acme" "widget"
    (by decide) (by decide)

/-- Counterexample for C7: a repository segment ending in `.git.git` parses to
`widget`, not to a name still ending in `.git` — `trim_end_matches(".git")`
removes every trailing `.git`, not at most one. -/
theorem c7_counterexample :
    parse_git_url "git@github.com:acme/widget.git.git" = some ("acme", "widget") := by
  decide

/-- Claim C7 (corrected): the repository name returned by a successful
`parse_git_url` is the captured remainder with all (not at most one) trailing
`.git` suffixes removed; consequently the returned name never ends in
`.git`. -/
theorem c7_no_git_suffix (url o r : String)
    (h : parse_git_url url = some (o, r)) : gitSuffix r.data = false := by
  unfold parse_git_url at h
  cases hssh : (if startsWithGit url then sshSearch url.data else none) with
  | some p =>
    obtain ⟨g1, g2⟩ := p
    rw [hssh] at h
    simp only [Option.some.injEq, Prod.mk.injEq] at h
    obtain ⟨_, h5⟩ := h
    subst h5
    exact gitSuffix_trimEndGit g2
  | none =>
    rw [hssh] at h
    unfold httpsPart at h
    cases hs : httpsSearch url.data with
    | none => rw [hs] at h; cases h
    | some p =>
      obtain ⟨g1, g2⟩ := p
      rw [hs] at h
      simp only [Option.some.injEq, Prod.mk.injEq] at h
      obtain ⟨_, h5⟩ := h
      subst h5
      exact gitSuffix_trimEndGit g2

/-- Witness for C7: the name parsed from `git@github.com:acme/widget.git`
does not end in `.git`. -/
theorem c7_no_git_suffix_witness : gitSuffix ("widget" : String).data = false :=
  c7_no_git_suffix "git@github.com:acme/widget.git" "acme" "widget" (by decide)

/-- Claim C8 (confirmed): `determine_service` classifies a URL by substring
containment in the source's fixed order — github.com, then gitlab.com, then
bitbucket.org, then dev.azure.com or visualstudio.com, else Unknown — so
classification is total, a URL containing two known hostnames gets the
earlier one in this order, an unmatched URL classifies as Unknown, and
`build_pr_url` on Unknown aborts fatally (returns `none`). -/
theorem c8_determine_service_order :
    (∀ url : String, containsSeg "github.com".data url.data = true →
        determine_service url = GitService.GitHub) ∧
    (∀ url : String, containsSeg "github.com".data url.data = false →
        containsSeg "gitlab.com".data url.data = true →
        determine_service url = GitService.GitLab) ∧
    (∀ url : String, containsSeg "github.com".data url.data = false →
        containsSeg "gitlab.com".data url.data = false →
        containsSeg "bitbucket.org".data url.data = true →
        determine_service url = GitService.Bitbucket) ∧
    (∀ url : String, containsSeg "github.com".data url.data = false →
        containsSeg "gitlab.com".data url.data = false →
        containsSeg "bitbucket.org".data url.data = false →
        (containsSeg "dev.azure.com".data url.data = true ∨
          containsSeg "visualstudio.com".data url.data = true) →
        determine_service url = GitService.AzureDevOps) ∧
    (∀ url : String, containsSeg "github.com".data url.data = false →
        containsSeg "gitlab.com".data url.data = false →
        containsSeg "bitbucket.org".data url.data = false →
        containsSeg "dev.azure.com".data url.data = false →
        containsSeg "visualstudio.com".data url.data = false →
        determine_service url = GitService.Unknown) ∧
    (∀ (o r s t : String) (ti d : Option String) (dr : Bool),
        build_pr_url GitService.Unknown o r s t ti d dr = none) := by
  refine ⟨?_, ?_, ?_, ?_, ?_, ?_⟩
  · intro url h1
    simp [determine_service, h1]
  · intro url h1 h2
    simp [determine_service, h1, h2]
  · intro url h1 h2 h3
    simp [determine_service, h1, h2, h3]
  · intro url h1 h2 h3 h4
    rcases h4 with h4 | h4 <;> simp [determine_service, h1, h2, h3, h4]
  · intro url h1 h2 h3 h4 h5
    simp [determine_service, h1, h2, h3, h4, h5]
  · intro o r s t ti d dr
    rfl

/-- Witness for C8: one URL per classification outcome, plus the fatal
Unknown build. -/
theorem c8_determine_service_order_witness :
    determine_service "https://github.com/x/y" = GitService.GitHub ∧
    determine_service "https://gitlab.com/x/y" = GitService.GitLab ∧
    determine_service "https://bitbucket.org/x/y" = GitService.Bitbucket ∧
    determine_service "https://dev.azure.com/x/y" = GitService.AzureDevOps ∧
    determine_service "https://example.com/x/y.git" = GitService.Unknown ∧
    build_pr_url GitService.Unknown "x" "y" "a" "b" none none false = none :=
  ⟨c8_determine_service_order.1 "https://github.com/x/y" (by decide),
   c8_determine_service_order.2.1 "https://gitlab.com/x/y" (by decide) (by decide),
   c8_determine_service_order.2.2.1 "https://bitbucket.org/x/y" (by decide)
     (by decide) (by decide),
   c8_determine_service_order.2.2.2.1 "https://dev.azure.com/x/y" (by decide)
     (by decide) (by decide) (Or.inl (by decide)),
   c8_determine_service_order.2.2.2.2.1 "https://example.com/x/y.git" (by decide)
     (by decide) (by decide) (by decide) (by decide),
   c8_determine_service_order.2.2.2.2.2 "x" "y" "a" "b" none none false⟩

/-- Claim C9 (confirmed): with no explicit target branch, the target is
resolved by probing the remote-tracking branches `<remote>/main`,
`<remote>/master`, `<remote>/develop`, `<remote>/trunk` in this fixed order,
returning the first that exists; when none of the four exists the literal
`"main"` is used.  In particular only-master gives `"master"` and no-match
gives `"main"`. -/
theorem c9_default_branch_probing (has : String → Bool) (remote : String) :
    (has (remote ++ "/main") = true → resolveTarget none has remote = "main") ∧
    (has (remote ++ "/main") = false → has (remote ++ "/master") = true →
      resolveTarget none has remote = "master") ∧
    (has (remote ++ "/main") = false → has (remote ++ "/master") = false →
      has (remote ++ "/develop") = true → resolveTarget none has remote = "develop") ∧
    (has (remote ++ "/main") = false → has (remote ++ "/master") = false →
      has (remote ++ "/develop") = false → has (remote ++ "/trunk") = true →
      resolveTarget none has remote = "trunk") ∧
    (has (remote ++ "/main") = false → has (remote ++ "/master") = false →
      has (remote ++ "/develop") = false → has (remote ++ "/trunk") = false →
      resolveTarget none has remote = "main") := by
  have e1 : remote ++ "/" ++ "main" = remote ++ "/main" :=
    strEq (by simp only [strData, List.append_assoc]; rfl)
  have e2 : remote ++ "/" ++ "master" = remote ++ "/master" :=
    strEq (by simp only [strData, List.append_assoc]; rfl)
  have e3 : remote ++ "/" ++ "develop" = remote ++ "/develop" :=
    strEq (by simp only [strData, List.append_assoc]; rfl)
  have e4 : remote ++ "/" ++ "trunk" = remote ++ "/trunk" :=
    strEq (by simp only [strData, List.append_assoc]; rfl)
  refine ⟨?_, ?_, ?_, ?_, ?_⟩
  · intro h1
    simp [resolveTarget, get_default_branch, List.find?, e1, h1]
  · intro h1 h2
    simp [resolveTarget, get_default_branch, List.find?, e1, e2, h1, h2]
  · intro h1 h2 h3
    simp [resolveTarget, get_default_branch, List.find?, e1, e2, e3, h1, h2, h3]
  · intro h1 h2 h3 h4
    simp [resolveTarget, get_default_branch, List.find?, e1, e2, e3, e4, h1, h2, h3, h4]
  · intro h1 h2 h3 h4
    simp [resolveTarget, get_default_branch, List.find?, e1, e2, e3, e4, h1, h2, h3, h4]

/-- Witness for C9: with exactly `origin/master` present the result is
`master`; with no candidate present the result is `main`. -/
theorem c9_default_branch_probing_witness :
    resolveTarget none (fun s => s == "origin/master") "origin" = "master" ∧
    resolveTarget none (fun _ => false) "origin" = "main" :=
  ⟨(c9_default_branch_probing (fun s => s == "origin/master") "origin").2.1
      (by decide) (by decide),
   (c9_default_branch_probing (fun _ => false) "origin").2.2.2.2
      rfl rfl rfl rfl⟩

/-- Claim C10 (confirmed): for every non-empty owner and repository name
containing no `/`, the Azure DevOps branch of `build_pr_url` never reaches
its fatal path: `parse_azure_url` applied to the synthesized
`https://dev.azure.com/{owner}/{repo}` succeeds and returns exactly
`(owner, repo)`, so the built URL uses the original owner as organization and
the original repository name as project. -/
theorem c10_azure_synth_roundtrip (o r s t : String) (ho : o ≠ "") (hr : r ≠ "")
    (ho2 : ∀ c ∈ o.data, c ≠ '/') (hr2 : ∀ c ∈ r.data, c ≠ '/') :
    parse_azure_url ("https://dev.azure.com/" ++ o ++ "/" ++ r) = some (o, r) ∧
    build_pr_url GitService.AzureDevOps o r s t none none false =
      some ("https://dev.azure.com/" ++ o ++ "/" ++ r ++ "/_git/" ++ r ++
        "/pullrequestcreate?sourceRef=" ++ s ++ "&targetRef=" ++ t) := by
  have hp := parse_azure_synth o r ho hr ho2 hr2
  refine ⟨hp, ?_⟩
  simp only [build_pr_url, hp]
  exact congrArg some (strEq (by simp [strData, strDataEmpty, List.append_assoc]))

/-- Witness for C10 at owner `acme`, repo `widget`. -/
theorem c10_azure_synth_roundtrip_witness :
    parse_azure_url ("https://dev.azure.com/" ++ "acme" ++ "/" ++ "widget") =
      some ("acme", "widget") ∧
    build_pr_url GitService.AzureDevOps "acme" "widget" "feat" "main" none none false =
      some ("https://dev.azure.com/" ++ "acme" ++ "/" ++ "widget" ++ "/_git/" ++ "widget" ++
        "/pullrequestcreate?sourceRef=" ++ "feat" ++ "&targetRef=" ++ "main") :=
  c10_azure_synth_roundtrip "acme" "widget" "feat" "main" (by decide) (by decide)
    (by decide) (by decide)

/-- Counterexample for C1: for the AzureDevOps provider with the empty owner,
`build_pr_url` aborts fatally (the synthesized URL fails to re-parse) instead
of returning the documented URL for that owner and repo. -/
theorem c1_counterexample :
    build_pr_url GitService.AzureDevOps "" "widget" "feat" "main" none none false = none := by
  decide

/-- Claim C1 (corrected): with no title, no description and draft unset,
`build_pr_url` returns the provider's documented URL — base path per the
spec's table with the exact owner and repo, and both branch names in the
documented positions — for GitHub, GitLab and Bitbucket for every choice of
owner/repo/branches; for AzureDevOps the same holds provided owner and repo
are non-empty and contain no `/`. -/
theorem c1_required_fields_urls (o r s t : String) :
    build_pr_url GitService.GitHub o r s t none none false =
      some ("https://github.com/" ++ o ++ "/" ++ r ++ "/compare/" ++ t ++ "..." ++ s ++
        "?expand=1") ∧
    build_pr_url GitService.GitLab o r s t none none false =
      some ("https://gitlab.com/" ++ o ++ "/" ++ r ++
        "/-/merge_requests/new?merge_request%5Bsource_branch%5D=" ++ s ++
        "&merge_request%5Btarget_branch%5D=" ++ t) ∧
    build_pr_url GitService.Bitbucket o r s t none none false =
      some ("https://bitbucket.org/" ++ o ++ "/" ++ r ++ "/pull-requests/new?source=" ++ s ++
        "&dest=" ++ t) ∧
    (o ≠ "" → r ≠ "" → (∀ c ∈ o.data, c ≠ '/') → (∀ c ∈ r.data, c ≠ '/') →
      build_pr_url GitService.AzureDevOps o r s t none none false =
        some ("https://dev.azure.com/" ++ o ++ "/" ++ r ++ "/_git/" ++ r ++
          "/pullrequestcreate?sourceRef=" ++ s ++ "&targetRef=" ++ t)) := by
  refine ⟨?_, ?_, ?_, ?_⟩
  · simp only [build_pr_url]
    exact congrArg some (strEq (by simp [strData, strDataEmpty, List.append_assoc]))
  · simp only [build_pr_url]
    exact congrArg some (strEq (by simp [strData, strDataEmpty, List.append_assoc]))
  · simp only [build_pr_url]
    exact congrArg some (strEq (by simp [strData, strDataEmpty, List.append_assoc]))
  · intro h1 h2 h3 h4
    have hp := parse_azure_synth o r h1 h2 h3 h4
    simp only [build_pr_url, hp]
    exact congrArg some (strEq (by simp [strData, strDataEmpty, List.append_assoc]))

/-- Witness for C1: the AzureDevOps conjunct applied at owner `acme`, repo
`widget`, source `feat`, target `main`. -/
theorem c1_required_fields_urls_witness :
    build_pr_url GitService.AzureDevOps "acme" "widget" "feat" "main" none none false =
      some ("https://dev.azure.com/" ++ "acme" ++ "/" ++ "widget" ++ "/_git/" ++ "widget" ++
        "/pullrequestcreate?sourceRef=" ++ "feat" ++ "&targetRef=" ++ "main") :=
  (c1_required_fields_urls "acme" "widget" "feat" "main").2.2.2 (by decide) (by decide)
    (by decide) (by decide)

set_option maxRecDepth 8192 in
/-- Claim C2 (confirmed): for every provider and all title and description
strings (spaces, `&`, `=`, `#` included), `build_pr_url` inserts the title
and description as form-urlencoded query values — the URL with title and
description is exactly the bare URL with the provider's title key, the
encoded title, the description key, the encoded description and the draft
fragment appended — and form-urlencoded decoding of the encoded value gives
back exactly the UTF-8 bytes of the original text (Rust string equality is
byte equality); owner, repo and the branch names appear verbatim
(unencoded) as contiguous segments of the built URL. -/
theorem c2_title_description_encoding (o r s t ti d : String) (dr : Bool) :
    formDecode (encodeForm ti).data = strUtf8 ti ∧
    formDecode (encodeForm d).data = strUtf8 d ∧
    (∀ svc : GitService,
      build_pr_url svc o r s t (some ti) (some d) dr =
        (build_pr_url svc o r s t none none false).map
          (fun u => u ++ titleKey svc ++ encodeForm ti ++ descKey svc ++
            encodeForm d ++ draftSuffix svc dr)) ∧
    (∀ u : String, build_pr_url GitService.GitHub o r s t none none false = some u →
      SegIn o.data u.data ∧ SegIn r.data u.data ∧ SegIn s.data u.data ∧
        SegIn t.data u.data) ∧
    (∀ u : String, build_pr_url GitService.GitLab o r s t none none false = some u →
      SegIn o.data u.data ∧ SegIn r.data u.data ∧ SegIn s.data u.data ∧
        SegIn t.data u.data) ∧
    (∀ u : String, build_pr_url GitService.Bitbucket o r s t none none false = some u →
      SegIn o.data u.data ∧ SegIn r.data u.data ∧ SegIn s.data u.data ∧
        SegIn t.data u.data) ∧
    (∀ u : String, build_pr_url GitService.AzureDevOps o r s t none none false = some u →
      SegIn r.data u.data ∧ SegIn s.data u.data ∧ SegIn t.data u.data) := by
  refine ⟨encodeForm_decode ti, encodeForm_decode d, ?_, ?_, ?_, ?_, ?_⟩
  · intro svc
    cases svc with
    | GitHub =>
      simp only [build_pr_url, titleKey, descKey, draftSuffix, Option.map_some']
      exact congrArg some (strEq (by simp [strData, strDataEmpty, List.append_assoc]))
    | GitLab =>
      simp only [build_pr_url, titleKey, descKey, draftSuffix, Option.map_some']
      exact congrArg some (strEq (by simp [strData, strDataEmpty, List.append_assoc]))
    | Bitbucket =>
      simp only [build_pr_url, titleKey, descKey, draftSuffix, Option.map_some']
      exact congrArg some (strEq (by simp [strData, strDataEmpty, List.append_assoc]))
    | AzureDevOps =>
      cases hp : parse_azure_url ("https://dev.azure.com/" ++ o ++ "/" ++ r) with
      | none => simp [build_pr_url, hp]
      | some p =>
        obtain ⟨org, proj⟩ := p
        simp only [build_pr_url, hp, titleKey, descKey, draftSuffix, Option.map_some']
        exact congrArg some (strEq (by simp [strData, strDataEmpty, List.append_assoc]))
    | Unknown => simp [build_pr_url]
  · intro u hu
    simp only [build_pr_url, Option.some.injEq] at hu
    subst hu
    refine ⟨?_, ?_, ?_, ?_⟩ <;>
      (simp only [strData, strDataEmpty, List.append_assoc, List.append_nil]
       repeat first
         | exact SegIn.here _ _
         | exact SegIn.refl _
         | apply SegIn.shift)
  · intro u hu
    simp only [build_pr_url, Option.some.injEq] at hu
    subst hu
    refine ⟨?_, ?_, ?_, ?_⟩ <;>
      (simp only [strData, strDataEmpty, List.append_assoc, List.append_nil]
       repeat first
         | exact SegIn.here _ _
         | exact SegIn.refl _
         | apply SegIn.shift)
  · intro u hu
    simp only [build_pr_url, Option.some.injEq] at hu
    subst hu
    refine ⟨?_, ?_, ?_, ?_⟩ <;>
      (simp only [strData, strDataEmpty, List.append_assoc, List.append_nil]
       repeat first
         | exact SegIn.here _ _
         | exact SegIn.refl _
         | apply SegIn.shift)
  · intro u hu
    cases hp : parse_azure_url ("https://dev.azure.com/" ++ o ++ "/" ++ r) with
    | none =>
      simp only [build_pr_url, hp] at hu
      cases hu
    | some p =>
      obtain ⟨org, proj⟩ := p
      simp only [build_pr_url, hp, Option.some.injEq] at hu
      subst hu
      refine ⟨?_, ?_, ?_⟩ <;>
        (simp only [strData, strDataEmpty, List.append_assoc, List.append_nil]
         repeat first
           | exact SegIn.here _ _
           | exact SegIn.refl _
           | apply SegIn.shift)

/-- Witness for C2: the source branch `feat` appears verbatim in the bare
GitHub URL built for `acme/widget` comparing `main` to `feat`, and decoding
the encoded title recovers its bytes. -/
theorem c2_title_description_encoding_witness :
    SegIn ("feat" : String).data
      ("https://github.com/acme/widget/compare/main...feat?expand=1" : String).data :=
  (((c2_title_description_encoding "acme" "widget" "feat" "main" "a b&c=d#e" "x y"
      false).2.2.2.1 "https://github.com/acme/widget/compare/main...feat?expand=1"
      (by decide)).2.2.1)
